import Mathlib

/-!
# Verification of the idt8a3xxxx register codec

Shallow embedding of `src/lib.rs` of the `idt8a3xxxx` crate: the `Contents`
width descriptor, the `Payload` codec (`from_slice`, `into_slice`, `value`),
and the `page`/`offset` address split.  Machine integers (`u8`, `u16`, `u64`)
are modelled as `Nat` with explicit `% 2 ^ w` where wrap-around matters;
fallible paths (`Option` returns, panics from `checked_shl(..).unwrap()`)
are modelled with `Option`.
-/

/-- `enum Contents`: the register format kinds. -/
inductive Contents where
  | Byte
  | Word
  | Word24
  | Word32
  | Word40
  | Word48
  | Frequency
  | TimeOfDay
deriving DecidableEq, Repr, Fintype

/-- `Contents::size`: the byte width of each kind. -/
def Contents.size : Contents → Nat
  | .Byte => 1
  | .Word => 2
  | .Word24 => 3
  | .Word32 => 4
  | .Word40 => 5
  | .Word48 => 6
  | .Frequency => 8
  | .TimeOfDay => 11

/-- `pub fn page(addr: u16) -> u8 { (addr >> 8) as u8 }`.
The argument is a `u16` (callers pass values `< 2 ^ 16`, enforced here by
`% 2 ^ 16`); the `as u8` cast is the final `% 2 ^ 8`. -/
def page (addr : Nat) : Nat := ((addr % 2 ^ 16) >>> 8) % 2 ^ 8

/-- `pub fn offset(addr: u16) -> u8 { (addr & 0xff) as u8 }`. -/
def offset (addr : Nat) : Nat := ((addr % 2 ^ 16) &&& 0xff) % 2 ^ 8

/-- The value of the 64-bit left shift `x << s` on `u64`.  Every use below
shifts by a constant at most 40, so the `% 2 ^ 64` wrap never truncates a
byte shifted into range. -/
def u64shl (x s : Nat) : Nat := (x <<< s) % 2 ^ 64

/-- `u64::checked_shl`: `none` exactly when the shift amount is 64 or more
(the `.unwrap()` in the source turns that `none` into a panic, modelled by
propagating `none`). -/
def checkedShl (x s : Nat) : Option Nat :=
  if s < 64 then some (u64shl x s) else none

/-- The right shift `value >> s` on `u64` as the generic encode loop of
`into_slice` performs it.  In Rust a shift amount of 64 or more is an
arithmetic overflow: with overflow checks enabled it panics, without them
the amount is reduced mod 64, which is the behaviour modelled here (the
amounts themselves are recorded in `intoSliceShiftAmounts`). -/
def u64shrWrap (x s : Nat) : Nat := (x % 2 ^ 64) >>> (s % 64)

/-- `struct Payload`: a `Contents` tag plus the borrowed data bytes. -/
structure Payload where
  contents : Contents
  data : List Nat
deriving DecidableEq, Repr

/-- `Payload::from_slice`: `None` when the slice is shorter than
`contents.size()`, otherwise a payload over the first `size` bytes. -/
def Payload.from_slice (contents : Contents) (slice : List Nat) :
    Option Payload :=
  let len := contents.size
  if slice.length < len then none
  else some { contents := contents, data := slice.take len }

/-- `Payload::into_slice`: writes the value into `data` and returns the
payload over the first `contents.size()` bytes together with the written
buffer (the Rust function mutates the slice in place; the written buffer is
returned explicitly here).  `Frequency` writes the 6-byte numerator `m =
value` and the 2-byte denominator `n = 1`; every other kind runs the generic
loop `data[i] = ((value >> (i*8)) & 0xff) as u8` for `i in 0..len`. -/
def Payload.into_slice (contents : Contents) (value : Nat) (data : List Nat) :
    Option (Payload × List Nat) :=
  let len := contents.size
  let written :=
    match contents with
    | .Frequency =>
        let m := value
        let n := 1
        let d := (List.range 6).foldl
          (fun d i => d.set i (u64shrWrap m (i * 8) &&& 0xff)) data
        (List.range' 6 2).foldl
          (fun d i => d.set i (u64shrWrap n ((i - 6) * 8) &&& 0xff)) d
    | _ =>
        (List.range len).foldl
          (fun d i => d.set i (u64shrWrap value (i * 8) &&& 0xff)) data
  some ({ contents := contents, data := written.take len }, written)

/-- One iteration of the decode loop body of `Payload::value`:
`rval |= (self.data[i] as u64).checked_shl(shl).unwrap()` with
`shl = (i - start) * 8`; the panic of `.unwrap()` propagates as `none`.
Indexing is in bounds at every call (the loops run over indices below
`data.len()`), so `List.getD _ _ 0` agrees with `data[i]`. -/
def decodeStep (data : List Nat) (start : Nat) (acc : Option Nat) (i : Nat) :
    Option Nat :=
  acc.bind fun r => (checkedShl (data.getD i 0) ((i - start) * 8)).map
    fun s => r ||| s

/-- The decode loop `for i in start..data.len()` of `Payload::value`
(`start = 5` for `TimeOfDay`, `start = 0` for the plain word kinds). -/
def decodeLoop (data : List Nat) (start : Nat) : Option Nat :=
  (List.range' start (data.length - start)).foldl (decodeStep data start)
    (some 0)

/-- `Payload::value`.  The `Frequency` arm accumulates the numerator from
bytes 0-5 and the denominator from bytes 6-7 with plain (constant, at most
40-bit) shifts and indexes `data[0..8]`, so it panics (`none`) when the data
is shorter than 8 bytes; the other arms run the checked decode loop. -/
def Payload.value (p : Payload) : Option Nat :=
  match p.contents with
  | .Frequency =>
      if 8 ≤ p.data.length then
        let m := (List.range 6).foldl
          (fun r i => r ||| u64shl (p.data.getD i 0) (i * 8)) 0
        let n := (List.range' 6 2).foldl
          (fun r i => r ||| u64shl (p.data.getD i 0) ((i - 6) * 8)) 0
        some (if n = 0 then m else m / n)
      else none
  | .TimeOfDay => decodeLoop p.data 5
  | _ => decodeLoop p.data 0

/-- The little-endian integer denoted by a byte list (the specification-side
reading of a buffer). -/
def leVal (l : List Nat) : Nat := l.foldr (fun b acc => b + 256 * acc) 0

/-- The `k`-byte little-endian representation of `v` (specification side). -/
def leBytes (v k : Nat) : List Nat :=
  (List.range k).map fun i => v / 256 ^ i % 256

/-- The shift amounts used by the encode loops of `Payload::into_slice`
for a given kind, in loop order: the `Frequency` arm shifts the numerator
by `i * 8` for `i in 0..6` and the denominator by `(i - 6) * 8` for
`i in 6..8`; the generic arm shifts by `i * 8` for `i in 0..len`. -/
def intoSliceShiftAmounts (c : Contents) : List Nat :=
  match c with
  | .Frequency =>
      ((List.range 6).map fun i => i * 8) ++
        ((List.range' 6 2).map fun i => (i - 6) * 8)
  | _ => (List.range c.size).map fun i => i * 8

/-- The shift amounts used by the decode loops of `Payload::value` on a
payload of the given kind whose data has the given length. -/
def valueShiftAmounts (c : Contents) (len : Nat) : List Nat :=
  match c with
  | .Frequency =>
      ((List.range 6).map fun i => i * 8) ++
        ((List.range' 6 2).map fun i => (i - 6) * 8)
  | .TimeOfDay => (List.range' 5 (len - 5)).map fun i => (i - 5) * 8
  | _ => (List.range len).map fun i => i * 8

/-! ## Arithmetic and list helper lemmas -/

theorem lor_eq_add_of_lt {r b n : Nat} (h : r < 2 ^ n) :
    r ||| b * 2 ^ n = r + b * 2 ^ n := by
  calc r ||| b * 2 ^ n = 2 ^ n * b ||| r := by rw [Nat.or_comm, Nat.mul_comm]
    _ = 2 ^ n * b + r := (Nat.mul_add_lt_is_or h b).symm
    _ = r + b * 2 ^ n := by ring

theorem leVal_nil : leVal [] = 0 := rfl

theorem leVal_cons (b : Nat) (l : List Nat) :
    leVal (b :: l) = b + 256 * leVal l := rfl

theorem leVal_append (l₁ l₂ : List Nat) :
    leVal (l₁ ++ l₂) = leVal l₁ + 256 ^ l₁.length * leVal l₂ := by
  induction l₁ with
  | nil => simp [leVal_nil]
  | cons b t ih =>
    simp only [List.cons_append, leVal_cons, ih, List.length_cons]
    ring

theorem leVal_lt_of_bytes {l : List Nat} (h : ∀ b ∈ l, b < 256) :
    leVal l < 256 ^ l.length := by
  induction l with
  | nil => simp [leVal_nil]
  | cons b t ih =>
    have hb : b < 256 := h b (by simp)
    have ht : leVal t < 256 ^ t.length := ih fun x hx => h x (by simp [hx])
    rw [leVal_cons, List.length_cons, pow_succ]
    set K := (256 : Nat) ^ t.length
    omega

theorem pow256_eq (k : Nat) : (256 : Nat) ^ k = 2 ^ (8 * k) := by
  rw [show (256 : Nat) = 2 ^ 8 by norm_num, ← pow_mul]

theorem u64shl_byte {b i : Nat} (hb : b < 256) (hi : i ≤ 7) :
    u64shl b (i * 8) = b * 2 ^ (i * 8) := by
  rw [u64shl, Nat.shiftLeft_eq, Nat.mod_eq_of_lt]
  calc b * 2 ^ (i * 8) < 256 * 2 ^ (i * 8) :=
        Nat.mul_lt_mul_of_pos_right hb (Nat.pos_pow_of_pos _ (by norm_num))
    _ ≤ 256 * 2 ^ 56 :=
        Nat.mul_le_mul_left _ (Nat.pow_le_pow_right (by norm_num) (by omega))
    _ = 2 ^ 64 := by norm_num

theorem getD_lt_of_bytes {l : List Nat} {k : Nat} (hb : ∀ b ∈ l, b < 256)
    (hk : k < l.length) : l.getD k 0 < 256 := by
  have : l.getD k 0 = l[k] := by
    simp [List.getD_eq_getElem?_getD, List.getElem?_eq_getElem hk]
  rw [this]
  exact hb _ (List.getElem_mem ..)

/-- The plain-shift accumulation loop of the `Frequency` arm of
`Payload::value`, evaluated on the first `k` bytes: it computes the
little-endian integer they denote. -/
theorem orFold_eq_leVal (l : List Nat) :
    ∀ k, k ≤ 8 → k ≤ l.length → (∀ b ∈ l, b < 256) →
      (List.range k).foldl (fun r i => r ||| u64shl (l.getD i 0) (i * 8)) 0
        = leVal (l.take k) := by
  intro k
  induction k with
  | zero => intro _ _ _; simp [leVal_nil]
  | succ k ih =>
    intro h8 hl hb
    rw [List.range_succ, List.foldl_append, ih (by omega) (by omega) hb]
    simp only [List.foldl_cons, List.foldl_nil]
    have hk : k < l.length := by omega
    have hbk : l.getD k 0 < 256 := getD_lt_of_bytes hb hk
    rw [u64shl_byte hbk (by omega)]
    have hlt : leVal (l.take k) < 2 ^ (k * 8) := by
      have := leVal_lt_of_bytes (l := l.take k)
        fun b hbm => hb b (List.mem_of_mem_take hbm)
      rwa [List.length_take, Nat.min_eq_left (by omega), pow256_eq,
        Nat.mul_comm 8 k] at this
    rw [lor_eq_add_of_lt hlt, List.take_succ, leVal_append,
      List.getElem?_eq_getElem hk]
    have hgd : l.getD k 0 = l[k] := by
      simp [List.getD_eq_getElem?_getD, List.getElem?_eq_getElem hk]
    simp only [Option.toList_some, leVal_cons, leVal_nil, List.length_take,
      Nat.min_eq_left (Nat.le_of_lt hk), pow256_eq, hgd, Nat.mul_comm 8 k]
    ring

/-- The checked decode loop of `Payload::value`, indexed from 0, as a
function of the byte list and the iteration count. -/
def decodeFold (l : List Nat) (k : Nat) : Option Nat :=
  (List.range k).foldl
    (fun acc i =>
      acc.bind fun r => (checkedShl (l.getD i 0) (i * 8)).map fun s => r ||| s)
    (some 0)

/-- `for i in start..data.len()` over `data` is `for j in 0..len - start`
over `data[start..]`. -/
theorem decodeLoop_eq_decodeFold (data : List Nat) (start : Nat) :
    decodeLoop data start = decodeFold (data.drop start) (data.length - start) := by
  rw [decodeLoop, decodeFold, List.range'_eq_map_range, List.foldl_map]
  congr 1
  funext acc j
  simp [decodeStep, List.getD_eq_getElem?_getD, List.getElem?_drop,
    Nat.add_sub_cancel_left]

/-- On a byte list of at most 8 bytes every shift is in range and the
checked decode loop returns the little-endian integer of the bytes read. -/
theorem decodeFold_eq_leVal (l : List Nat) :
    ∀ k, k ≤ 8 → k ≤ l.length → (∀ b ∈ l, b < 256) →
      decodeFold l k = some (leVal (l.take k)) := by
  intro k
  induction k with
  | zero => intro _ _ _; simp [decodeFold, leVal_nil]
  | succ k ih =>
    intro h8 hl hb
    rw [decodeFold, List.range_succ, List.foldl_append]
    rw [show (List.range k).foldl
      (fun acc i =>
        acc.bind fun r => (checkedShl (l.getD i 0) (i * 8)).map fun s => r ||| s)
      (some 0) = decodeFold l k from rfl]
    rw [ih (by omega) (by omega) hb]
    have hk : k < l.length := by omega
    have hbk : l.getD k 0 < 256 := getD_lt_of_bytes hb hk
    simp only [List.foldl_cons, List.foldl_nil, Option.some_bind, checkedShl,
      if_pos (show k * 8 < 64 by omega), Option.map_some]
    rw [u64shl_byte hbk (by omega)]
    simp only [Option.map_some']
    have hlt : leVal (l.take k) < 2 ^ (k * 8) := by
      have := leVal_lt_of_bytes (l := l.take k)
        fun b hbm => hb b (List.mem_of_mem_take hbm)
      rwa [List.length_take, Nat.min_eq_left (by omega), pow256_eq,
        Nat.mul_comm 8 k] at this
    rw [lor_eq_add_of_lt hlt, List.take_succ, leVal_append,
      List.getElem?_eq_getElem hk]
    have hgd : l.getD k 0 = l[k] := by
      simp [List.getD_eq_getElem?_getD, List.getElem?_eq_getElem hk]
    simp only [Option.toList_some, leVal_cons, leVal_nil, List.length_take,
      Nat.min_eq_left (Nat.le_of_lt hk), pow256_eq, hgd, Nat.mul_comm 8 k]
    ring_nf

/-- With at most 8 iterations every shift amount is below 64, so the
checked decode loop never hits the `unwrap` panic. -/
theorem decodeFold_isSome (l : List Nat) :
    ∀ k, k ≤ 8 → (decodeFold l k).isSome := by
  intro k
  induction k with
  | zero => intro _; simp [decodeFold]
  | succ k ih =>
    intro h8
    rw [decodeFold, List.range_succ, List.foldl_append]
    rw [show (List.range k).foldl
      (fun acc i =>
        acc.bind fun r => (checkedShl (l.getD i 0) (i * 8)).map fun s => r ||| s)
      (some 0) = decodeFold l k from rfl]
    obtain ⟨r, hr⟩ := Option.isSome_iff_exists.mp (ih (by omega))
    rw [hr]
    simp [checkedShl, show k * 8 < 64 by omega]

/-- The non-composite arms of `Payload::value` all run the decode loop from
index 0. -/
theorem value_generic {c : Contents} (h1 : c ≠ .Frequency)
    (h2 : c ≠ .TimeOfDay) (data : List Nat) :
    Payload.value ⟨c, data⟩ = decodeLoop data 0 := by
  cases c
  case Frequency => exact absurd rfl h1
  case TimeOfDay => exact absurd rfl h2
  all_goals rfl

/-- The non-composite kinds are at most 6 bytes wide. -/
theorem size_le_six {c : Contents} (h1 : c ≠ .Frequency)
    (h2 : c ≠ .TimeOfDay) : c.size ≤ 6 := by
  cases c <;> simp_all [Contents.size]

/-- `Payload::value` on the `Frequency` arm with at least 8 data bytes:
numerator from bytes 0-5, denominator from bytes 6-7. -/
theorem value_frequency (data : List Nat) (h8 : 8 ≤ data.length)
    (hb : ∀ b ∈ data, b < 256) :
    Payload.value ⟨.Frequency, data⟩ =
      some (if leVal ((data.drop 6).take 2) = 0 then leVal (data.take 6)
            else leVal (data.take 6) / leVal ((data.drop 6).take 2)) := by
  have hm : (List.range 6).foldl
      (fun r i => r ||| u64shl (data.getD i 0) (i * 8)) 0
        = leVal (data.take 6) :=
    orFold_eq_leVal data 6 (by omega) (by omega) hb
  have hn : (List.range' 6 2).foldl
      (fun r i => r ||| u64shl (data.getD i 0) ((i - 6) * 8)) 0
        = leVal ((data.drop 6).take 2) := by
    rw [List.range'_eq_map_range, List.foldl_map]
    have heq : (fun (r : Nat) (j : Nat) =>
        r ||| u64shl (data.getD (6 + j) 0) ((6 + j - 6) * 8))
          = fun r j => r ||| u64shl ((data.drop 6).getD j 0) (j * 8) := by
      funext r j
      simp [List.getD_eq_getElem?_getD, List.getElem?_drop,
        Nat.add_sub_cancel_left]
    rw [heq, orFold_eq_leVal (data.drop 6) 2 (by omega) (by simp; omega)
      fun b hbm => hb b (List.mem_of_mem_drop hbm)]
  simp only [Payload.value, if_pos h8, hm, hn]

/-! ## Claims -/

/-- C1: for every `Frequency` payload with an 8-byte data buffer, `value()`
reads bytes 0-5 as the little-endian numerator `m` and bytes 6-7 as the
little-endian denominator `n`, and returns `m` when `n = 0` and the
truncating division `m / n` otherwise. -/
theorem frequency_value_decodes_ratio (data : List Nat)
    (h8 : data.length = 8) (hb : ∀ b ∈ data, b < 256) :
    Payload.value ⟨.Frequency, data⟩ =
      some (if leVal (data.drop 6) = 0 then leVal (data.take 6)
            else leVal (data.take 6) / leVal (data.drop 6)) := by
  have h := value_frequency data (by omega) hb
  rwa [List.take_of_length_le (by simp [h8])] at h

/-- C1 witness: the buffer encoding `m = 10`, `n = 2` decodes to 5. -/
theorem frequency_value_decodes_ratio_witness :
    Payload.value ⟨.Frequency, [10, 0, 0, 0, 0, 0, 2, 0]⟩ = some 5 :=
  (frequency_value_decodes_ratio [10, 0, 0, 0, 0, 0, 2, 0] (by decide)
    (by decide)).trans (by decide)

/-- C2: for every `TimeOfDay` payload with an 11-byte data buffer, `value()`
ignores the fractional bytes 0-4 and returns the little-endian integer
formed from bytes 5-10 (the seconds since the epoch). -/
theorem timeofday_value_decodes_seconds (data : List Nat)
    (h11 : data.length = 11) (hb : ∀ b ∈ data, b < 256) :
    Payload.value ⟨.TimeOfDay, data⟩ = some (leVal (data.drop 5)) := by
  have h : Payload.value ⟨.TimeOfDay, data⟩ = decodeLoop data 5 := rfl
  rw [h, decodeLoop_eq_decodeFold,
    decodeFold_eq_leVal (data.drop 5) (data.length - 5) (by omega)
      (by simp [h11]) fun b hbm => hb b (List.mem_of_mem_drop hbm),
    List.take_of_length_le (by simp [h11])]

/-- C2 witness: the 11-byte sequence `00 00 00 00 00 00 77 76 5d 00 00`
decodes to `0x5d767700 = 1568044800` seconds, which is 18148 days plus
16 hours past the epoch, i.e. 2019-09-09T16:00:00 UTC. -/
theorem timeofday_value_decodes_seconds_witness :
    Payload.value ⟨.TimeOfDay, [0, 0, 0, 0, 0, 0x00, 0x77, 0x76, 0x5d, 0, 0]⟩
        = some 1568044800
      ∧ 1568044800 = (18148 * 24 + 16) * 3600 :=
  ⟨(timeofday_value_decodes_seconds
      [0, 0, 0, 0, 0, 0x00, 0x77, 0x76, 0x5d, 0, 0] (by decide)
      (by decide)).trans (by decide),
    by decide⟩

/-- C3: for every non-composite kind and every buffer at least `size` bytes
long, `from_slice` followed by `value` yields exactly the little-endian
integer of the first `size` bytes. -/
theorem word_from_slice_value_le (c : Contents) (h1 : c ≠ .Frequency)
    (h2 : c ≠ .TimeOfDay) (buf : List Nat) (hlen : c.size ≤ buf.length)
    (hb : ∀ b ∈ buf, b < 256) :
    (Payload.from_slice c buf).bind Payload.value
      = some (leVal (buf.take c.size)) := by
  rw [Payload.from_slice]
  simp only [if_neg (Nat.not_lt.mpr hlen), Option.some_bind]
  rw [value_generic h1 h2, decodeLoop_eq_decodeFold, List.drop_zero,
    Nat.sub_zero]
  have hlt : (buf.take c.size).length = c.size := by
    simp only [List.length_take]
    omega
  rw [hlt, decodeFold_eq_leVal _ _
    (Nat.le_trans (size_le_six h1 h2) (by norm_num))
    (Nat.le_of_eq hlt.symm) fun b hbm => hb b (List.mem_of_mem_take hbm),
    List.take_take, Nat.min_self]

/-- C3 witness: the vector `de 01 ce fa ed fe` decodes, per kind, to
`0xde`, `0x1de`, `0xce01de`, `0xface01de`, `0xedface01de`, `0xfeedface01de`. -/
theorem word_from_slice_value_le_witness :
    (Payload.from_slice .Byte [0xde, 0x01, 0xce, 0xfa, 0xed, 0xfe]).bind
        Payload.value = some 0xde
      ∧ (Payload.from_slice .Word [0xde, 0x01, 0xce, 0xfa, 0xed, 0xfe]).bind
        Payload.value = some 0x1de
      ∧ (Payload.from_slice .Word24 [0xde, 0x01, 0xce, 0xfa, 0xed, 0xfe]).bind
        Payload.value = some 0xce01de
      ∧ (Payload.from_slice .Word32 [0xde, 0x01, 0xce, 0xfa, 0xed, 0xfe]).bind
        Payload.value = some 0xface01de
      ∧ (Payload.from_slice .Word40 [0xde, 0x01, 0xce, 0xfa, 0xed, 0xfe]).bind
        Payload.value = some 0xedface01de
      ∧ (Payload.from_slice .Word48 [0xde, 0x01, 0xce, 0xfa, 0xed, 0xfe]).bind
        Payload.value = some 0xfeedface01de :=
  ⟨(word_from_slice_value_le .Byte (by decide) (by decide) _ (by decide)
      (by decide)).trans (by decide),
    (word_from_slice_value_le .Word (by decide) (by decide) _ (by decide)
      (by decide)).trans (by decide),
    (word_from_slice_value_le .Word24 (by decide) (by decide) _ (by decide)
      (by decide)).trans (by decide),
    (word_from_slice_value_le .Word32 (by decide) (by decide) _ (by decide)
      (by decide)).trans (by decide),
    (word_from_slice_value_le .Word40 (by decide) (by decide) _ (by decide)
      (by decide)).trans (by decide),
    (word_from_slice_value_le .Word48 (by decide) (by decide) _ (by decide)
      (by decide)).trans (by decide)⟩

/-- C5: `from_slice` fails exactly when the buffer is shorter than the
kind's size, and otherwise produces a payload of that kind over exactly the
first `size` bytes of the input. -/
theorem from_slice_length_check (c : Contents) (slice : List Nat) :
    (Payload.from_slice c slice = none ↔ slice.length < c.size)
      ∧ ∀ p, Payload.from_slice c slice = some p →
          p.contents = c ∧ p.data = slice.take c.size := by
  refine ⟨?_, ?_⟩
  · rw [Payload.from_slice]
    by_cases h : slice.length < c.size
    · simp [h]
    · simp [h]
  · intro p hp
    rw [Payload.from_slice] at hp
    by_cases h : slice.length < c.size
    · simp [h] at hp
    · simp only [if_neg h, Option.some.injEq] at hp
      rw [← hp]
      exact ⟨rfl, rfl⟩

/-- C5 witness: a two-byte buffer is too short for `Word32`. -/
theorem from_slice_length_check_witness :
    Payload.from_slice .Word32 [1, 2] = none :=
  (from_slice_length_check .Word32 [1, 2]).1.mpr (by decide)

/-- The checked decode loop from index 0 succeeds on at most 8 bytes. -/
theorem decodeLoop_zero_isSome (data : List Nat) (h : data.length ≤ 8) :
    (decodeLoop data 0).isSome := by
  rw [decodeLoop_eq_decodeFold]
  exact decodeFold_isSome _ _ (by omega)

/-- C7: on every payload produced by `from_slice` the decode loops of
`value()` only use shift amounts of at most 40 (so strictly below the
64-bit accumulator width), hence the `checked_shl(..).unwrap()` abort is
unreachable and `value()` is total on such payloads. -/
theorem value_total_on_from_slice (c : Contents) (slice : List Nat)
    (p : Payload) (h : Payload.from_slice c slice = some p) :
    (∀ s ∈ valueShiftAmounts c p.data.length, s ≤ 40)
      ∧ (Payload.value p).isSome := by
  rw [Payload.from_slice] at h
  by_cases hlen : slice.length < c.size
  · simp [hlen] at h
  · simp only [if_neg hlen, Option.some.injEq] at h
    subst h
    have hdl : (slice.take c.size).length = c.size := by
      simp only [List.length_take]
      omega
    constructor
    · show ∀ s ∈ valueShiftAmounts c (slice.take c.size).length, s ≤ 40
      rw [hdl]
      cases c <;> decide
    · show (Payload.value ⟨c, slice.take c.size⟩).isSome
      cases c
      all_goals try exact decodeLoop_zero_isSome _ (by rw [hdl]; decide)
      · have h8 : 8 ≤ (slice.take (Contents.size .Frequency)).length := by
          rw [hdl]
          decide
        simp only [Payload.value, if_pos h8]
        rfl
      · show (decodeLoop (slice.take (Contents.size .TimeOfDay)) 5).isSome
        rw [decodeLoop_eq_decodeFold]
        exact decodeFold_isSome _ _ (by rw [hdl]; decide)

/-- C7 witness: a concrete `from_slice` payload on which `value()` uses
only small shifts and succeeds. -/
theorem value_total_on_from_slice_witness :
    (∀ s ∈ valueShiftAmounts .TimeOfDay
        (Payload.mk .TimeOfDay (List.replicate 11 0)).data.length, s ≤ 40)
      ∧ (Payload.value ⟨.TimeOfDay, List.replicate 11 0⟩).isSome :=
  value_total_on_from_slice .TimeOfDay (List.replicate 11 0)
    ⟨.TimeOfDay, List.replicate 11 0⟩ (by decide)

/-- C8 counterexample: the claim speaks of "seven enumerated kinds", but
`Contents` has eight variants. -/
theorem contents_not_seven_kinds : Fintype.card Contents ≠ 7 := by decide

/-- C8 (amended: eight kinds): `Contents::size` is pure and total over the
closed set of eight enumerated kinds, returning the widths
1, 2, 3, 4, 5, 6, 8, 11. -/
theorem contents_size_widths :
    Contents.Byte.size = 1 ∧ Contents.Word.size = 2
      ∧ Contents.Word24.size = 3 ∧ Contents.Word32.size = 4
      ∧ Contents.Word40.size = 5 ∧ Contents.Word48.size = 6
      ∧ Contents.Frequency.size = 8 ∧ Contents.TimeOfDay.size = 11
      ∧ Fintype.card Contents = 8 := by decide

/-- C9: for every 16-bit address, `page` is the high byte (`addr >> 8`),
`offset` is the low byte (`addr & 0xff`), and `(page << 8) | offset`
reconstructs the address. -/
theorem page_offset_split (addr : Nat) (h : addr < 2 ^ 16) :
    page addr = addr >>> 8 ∧ offset addr = addr &&& 0xff
      ∧ (page addr <<< 8) ||| offset addr = addr := by
  have h1 : addr % 2 ^ 16 = addr := Nat.mod_eq_of_lt h
  have h16 : addr < 65536 := by norm_num at h; exact h
  have e1 : page addr = addr / 256 % 256 := by
    rw [page, h1, Nat.shiftRight_eq_div_pow]
    norm_num
  have e2 : offset addr = addr % 256 := by
    rw [offset, h1, show (0xff : Nat) = 2 ^ 8 - 1 by norm_num,
      Nat.and_pow_two_sub_one_eq_mod]
    norm_num [Nat.mod_mod_of_dvd]
  refine ⟨?_, ?_, ?_⟩
  · rw [e1, Nat.shiftRight_eq_div_pow, Nat.mod_eq_of_lt (by omega)]
  · rw [e2, show (0xff : Nat) = 2 ^ 8 - 1 by norm_num,
      Nat.and_pow_two_sub_one_eq_mod]
  · rw [e1, e2, Nat.shiftLeft_eq, Nat.or_comm,
      lor_eq_add_of_lt (show addr % 256 < 2 ^ 8 by norm_num; omega)]
    norm_num
    omega

/-- C9 witness: splitting and reconstructing `0xabcd`. -/
theorem page_offset_split_witness :
    page 0xabcd = 0xab ∧ offset 0xabcd = 0xcd :=
  ⟨((page_offset_split 0xabcd (by norm_num)).1).trans (by decide),
    ((page_offset_split 0xabcd (by norm_num)).2.1).trans (by decide)⟩

/-! ## Encode-side helper lemmas -/

/-- The write loop `for i in 0..k { data[i] = f(i) }` of `into_slice`:
it replaces the first `k` bytes by `f 0, …, f (k-1)` and leaves the tail
and the length unchanged. -/
theorem setFold_spec (f : Nat → Nat) (data : List Nat) :
    ∀ k, k ≤ data.length →
      ((List.range k).foldl (fun d i => d.set i (f i)) data).take k
          = (List.range k).map f
        ∧ ((List.range k).foldl (fun d i => d.set i (f i)) data).drop k
          = data.drop k
        ∧ ((List.range k).foldl (fun d i => d.set i (f i)) data).length
          = data.length := by
  intro k
  induction k with
  | zero => intro _; simp
  | succ k ih =>
    intro hk
    obtain ⟨ht, hd, hl⟩ := ih (by omega)
    rw [List.range_succ, List.foldl_append]
    rw [show (List.range k).foldl (fun d i => d.set i (f i)) data
      = (List.range k).foldl (fun d i => d.set i (f i)) data from rfl] at ht hd hl
    set w := (List.range k).foldl (fun d i => d.set i (f i)) data with hw
    simp only [List.foldl_cons, List.foldl_nil]
    have hkw : k < w.length := by omega
    have hset : w.set k (f k) = w.take k ++ f k :: w.drop (k + 1) :=
      List.set_eq_take_cons_drop _ hkw
    have hlen6 : (w.take k).length = k := by
      rw [List.length_take]
      omega
    refine ⟨?_, ?_, ?_⟩
    · rw [hset, List.append_cons, List.take_left' (by simp [hlen6]),
        List.map_append, ht]
      rfl
    · rw [hset, List.append_cons, List.drop_left' (by simp [hlen6])]
      have : w.drop (k + 1) = data.drop (k + 1) := by
        have h1 : (w.drop k).drop 1 = (data.drop k).drop 1 := by rw [hd]
        rwa [List.drop_drop, List.drop_drop] at h1
      rw [this]
    · rw [List.length_set, hl]

/-- One byte of the generic encode loop, for in-range shifts: it is the
`i`-th byte of the little-endian representation of the 64-bit value. -/
theorem wrapByte_eq {v : Nat} (hv : v < 2 ^ 64) {i : Nat} (hi : i ≤ 7) :
    u64shrWrap v (i * 8) &&& 0xff = v / 256 ^ i % 256 := by
  rw [u64shrWrap, Nat.mod_eq_of_lt hv,
    Nat.mod_eq_of_lt (show i * 8 < 64 by omega), Nat.shiftRight_eq_div_pow,
    show (0xff : Nat) = 2 ^ 8 - 1 by norm_num,
    Nat.and_pow_two_sub_one_eq_mod, pow256_eq, Nat.mul_comm 8 i]

/-- The bytes the generic encode loop produces are the little-endian
representation, as long as every shift stays below 64 bits. -/
theorem map_wrapByte_eq_leBytes {v : Nat} (hv : v < 2 ^ 64) {k : Nat}
    (hk : k ≤ 8) :
    (List.range k).map (fun i => u64shrWrap v (i * 8) &&& 0xff)
      = leBytes v k := by
  rw [leBytes]
  apply List.map_congr_left
  intro i hi
  rw [List.mem_range] at hi
  exact wrapByte_eq hv (by omega)

theorem leBytes_length (v k : Nat) : (leBytes v k).length = k := by
  simp [leBytes]

theorem leBytes_bytes (v k : Nat) : ∀ b ∈ leBytes v k, b < 256 := by
  intro b hb
  rw [leBytes] at hb
  obtain ⟨i, _, rfl⟩ := List.mem_map.mp hb
  exact Nat.mod_lt _ (by norm_num)

/-- Reading back the little-endian bytes of `v` gives `v` modulo the field
width. -/
theorem leVal_leBytes (v : Nat) : ∀ k, leVal (leBytes v k) = v % 256 ^ k := by
  intro k
  induction k with
  | zero => simp [leBytes, leVal_nil, Nat.mod_one]
  | succ k ih =>
    rw [show leBytes v (k + 1) = leBytes v k ++ [v / 256 ^ k % 256] by
        rw [leBytes, leBytes, List.range_succ, List.map_append]
        rfl,
      leVal_append, ih, leBytes_length, pow_succ, Nat.mod_mul]
    simp [leVal_cons, leVal_nil]

/-- Every kind except `Frequency` takes the generic write loop of
`into_slice`. -/
theorem into_slice_not_freq {c : Contents} (h1 : c ≠ .Frequency) (v : Nat)
    (buf : List Nat) :
    Payload.into_slice c v buf =
      some (⟨c, ((List.range c.size).foldl
          (fun d i => d.set i (u64shrWrap v (i * 8) &&& 0xff)) buf).take c.size⟩,
        (List.range c.size).foldl
          (fun d i => d.set i (u64shrWrap v (i * 8) &&& 0xff)) buf) := by
  cases c
  case Frequency => exact absurd rfl h1
  all_goals rfl

/-- `into_slice` on a non-`Frequency` kind whose width keeps every shift
below 64 bits: the first `size` bytes become the little-endian
representation of the value, the rest of the buffer is untouched. -/
theorem into_slice_generic_spec (c : Contents) (h1 : c ≠ .Frequency)
    (h8 : c.size ≤ 8) (v : Nat) (hv : v < 2 ^ 64) (buf : List Nat)
    (hlen : c.size ≤ buf.length) :
    ∃ w, Payload.into_slice c v buf = some (⟨c, w.take c.size⟩, w)
      ∧ w.take c.size = leBytes v c.size
      ∧ w.drop c.size = buf.drop c.size
      ∧ w.length = buf.length := by
  obtain ⟨ht, hd, hl⟩ :=
    setFold_spec (fun i => u64shrWrap v (i * 8) &&& 0xff) buf c.size hlen
  refine ⟨_, into_slice_not_freq h1 v buf, ?_, hd, hl⟩
  rw [ht, map_wrapByte_eq_leBytes hv h8]

/-- `into_slice` on `Frequency`: bytes 0-5 get the little-endian numerator
(the low 6 bytes of the value), bytes 6-7 get the denominator 1, the rest
of the buffer is untouched. -/
theorem into_slice_frequency_spec (v : Nat) (hv : v < 2 ^ 64)
    (buf : List Nat) (hlen : 8 ≤ buf.length) :
    ∃ w, Payload.into_slice .Frequency v buf
        = some (⟨.Frequency, w.take 8⟩, w)
      ∧ w.take 8 = leBytes v 6 ++ [1, 0]
      ∧ w.drop 8 = buf.drop 8
      ∧ w.length = buf.length := by
  obtain ⟨ht, hd, hl⟩ :=
    setFold_spec (fun i => u64shrWrap v (i * 8) &&& 0xff) buf 6 (by omega)
  set d := (List.range 6).foldl
    (fun d i => d.set i (u64shrWrap v (i * 8) &&& 0xff)) buf with hdef
  have hx6 : u64shrWrap 1 ((6 - 6) * 8) &&& 0xff = 1 := by decide
  have hx7 : u64shrWrap 1 ((7 - 6) * 8) &&& 0xff = 0 := by decide
  have hwrit : Payload.into_slice .Frequency v buf
      = some (⟨.Frequency,
          ((d.set 6 (u64shrWrap 1 ((6 - 6) * 8) &&& 0xff)).set 7
            (u64shrWrap 1 ((7 - 6) * 8) &&& 0xff)).take 8⟩,
        (d.set 6 (u64shrWrap 1 ((6 - 6) * 8) &&& 0xff)).set 7
          (u64shrWrap 1 ((7 - 6) * 8) &&& 0xff)) := rfl
  rw [hx6, hx7] at hwrit
  have h6 : 6 < d.length := by omega
  have hs1 : d.set 6 1 = d.take 6 ++ 1 :: d.drop 7 :=
    List.set_eq_take_cons_drop _ h6
  have hsplit : d.set 6 1 = (d.take 6 ++ [1]) ++ d.drop 7 := by
    rw [hs1, List.append_cons]
  have hA : ((d.take 6 ++ [1]) : List Nat).length = 7 := by
    simp only [List.length_append, List.length_take, List.length_cons,
      List.length_nil]
    omega
  have h7 : 7 < (d.set 6 1).length := by
    rw [List.length_set]
    omega
  have hs2 : (d.set 6 1).set 7 0
      = (d.set 6 1).take 7 ++ 0 :: (d.set 6 1).drop 8 :=
    List.set_eq_take_cons_drop _ h7
  have hLt : (d.set 6 1).take 7 = d.take 6 ++ [1] := by
    rw [hsplit]
    exact List.take_left' hA
  have hLd : (d.set 6 1).drop 8 = d.drop 8 := by
    rw [show (8 : Nat) = 7 + 1 from rfl, ← List.drop_drop, hsplit,
      List.drop_left' hA, List.drop_drop]
  have hw : (d.set 6 1).set 7 0 = ((d.take 6 ++ [1]) ++ [0]) ++ d.drop 8 := by
    rw [hs2, hLt, hLd, List.append_cons]
  have hB : (((d.take 6 ++ [1]) ++ [0]) : List Nat).length = 8 := by
    simp only [List.length_append, List.length_take, List.length_cons,
      List.length_nil]
    omega
  refine ⟨_, hwrit, ?_, ?_, ?_⟩
  · rw [hw, List.take_left' hB, ht, map_wrapByte_eq_leBytes hv (by norm_num)]
    simp [List.append_assoc]
  · rw [hw, List.drop_left' hB]
    have h1 : (d.drop 6).drop 2 = (buf.drop 6).drop 2 := by rw [hd]
    rwa [List.drop_drop, List.drop_drop] at h1
  · rw [List.length_set, List.length_set, hl]

/-- C4: for every kind other than `Frequency` and `TimeOfDay`, writing a
64-bit value with `into_slice` and reading the same buffer back through
`from_slice`/`value` yields the value truncated to the field width,
`v mod 2 ^ (8 * size)`. -/
theorem into_from_roundtrip (c : Contents) (h1 : c ≠ .Frequency)
    (h2 : c ≠ .TimeOfDay) (v : Nat) (hv : v < 2 ^ 64) (buf : List Nat)
    (hlen : c.size ≤ buf.length) :
    (Payload.into_slice c v buf).bind
        (fun pd => (Payload.from_slice c pd.2).bind Payload.value)
      = some (v % 2 ^ (8 * c.size)) := by
  have h8 : c.size ≤ 8 := Nat.le_trans (size_le_six h1 h2) (by norm_num)
  obtain ⟨w, hw, ht, hd, hl⟩ := into_slice_generic_spec c h1 h8 v hv buf hlen
  rw [hw, Option.some_bind]
  show (Payload.from_slice c w).bind Payload.value = _
  rw [Payload.from_slice]
  simp only [if_neg (show ¬w.length < c.size by omega), Option.some_bind]
  rw [value_generic h1 h2, decodeLoop_eq_decodeFold, List.drop_zero,
    Nat.sub_zero]
  have hklen : (w.take c.size).length = c.size := by
    rw [List.length_take]
    omega
  rw [hklen, ht,
    decodeFold_eq_leVal _ _ h8 (by simp [leBytes_length]) (leBytes_bytes v _),
    List.take_of_length_le (by simp [leBytes_length]), leVal_leBytes,
    pow256_eq]

/-- C4 witness: a `Word24` round trip truncates `0xa1b2c3d4` to
`0xb2c3d4`. -/
theorem into_from_roundtrip_witness :
    (Payload.into_slice .Word24 0xa1b2c3d4 [0, 0, 0]).bind
        (fun pd => (Payload.from_slice .Word24 pd.2).bind Payload.value)
      = some 0xb2c3d4 :=
  (into_from_roundtrip .Word24 (by decide) (by decide) 0xa1b2c3d4
    (by norm_num) [0, 0, 0] (by decide)).trans (by decide)

/-- C6 counterexample: for `TimeOfDay` the generic encode loop shifts the
64-bit value by 64, 72 and 80 bits for bytes 8-10 (an arithmetic overflow
of the shift; under the wrapped-shift semantics the low bytes of the value
reappear at offsets 8-10, and with overflow checks enabled the encode
aborts), so `into_slice` does not write the 11-byte little-endian
representation: at value 1 it writes byte 8 as 1 where the representation
has 0. -/
theorem into_slice_timeofday_not_le :
    (Payload.into_slice .TimeOfDay 1 (List.replicate 11 0)).map
        (fun pd => pd.1.data) ≠ some (leBytes 1 11) := by decide

/-- C6 (amended: every kind except `TimeOfDay`, whose generic-loop shift
amounts reach 80 and overflow the 64-bit value): `into_slice` writes the
little-endian bytes of the value into the first `size` bytes of the
buffer, leaves the rest untouched, and returns (never failing) a payload
over exactly those bytes; for `Frequency` the first 6 bytes are the
little-endian numerator and bytes 6-7 are the denominator fixed to 1. -/
theorem into_slice_writes_le (c : Contents) (h2 : c ≠ .TimeOfDay) (v : Nat)
    (hv : v < 2 ^ 64) (buf : List Nat) (hlen : c.size ≤ buf.length) :
    ∃ w, Payload.into_slice c v buf = some (⟨c, w.take c.size⟩, w)
      ∧ w.take c.size
          = (if c = .Frequency then leBytes v 6 ++ [1, 0]
             else leBytes v c.size)
      ∧ w.drop c.size = buf.drop c.size
      ∧ w.length = buf.length := by
  by_cases h1 : c = .Frequency
  · subst h1
    simp only [if_pos rfl]
    exact into_slice_frequency_spec v hv buf hlen
  · simp only [if_neg h1]
    exact into_slice_generic_spec c h1
      (Nat.le_trans (size_le_six h1 h2) (by norm_num)) v hv buf hlen

/-- C6 witness: encoding 10 as a `Frequency` writes numerator 10 and
denominator 1. -/
theorem into_slice_writes_le_witness :
    Payload.into_slice .Frequency 10 (List.replicate 8 9)
      = some (⟨.Frequency, [10, 0, 0, 0, 0, 0, 1, 0]⟩,
          [10, 0, 0, 0, 0, 0, 1, 0]) := by
  obtain ⟨w, hw, ht, hd, hl⟩ :=
    into_slice_writes_le .Frequency (by decide) 10 (by norm_num)
      (List.replicate 8 9) (by decide)
  have hwv : w = [10, 0, 0, 0, 0, 0, 1, 0] := by
    conv_lhs => rw [← List.take_append_drop (Contents.size .Frequency) w]
    rw [ht, hd]
    decide
  rw [hw, hwv]
  decide

/-- C10 counterexample: the generic encode loop of `into_slice` on
`TimeOfDay` (size 11) shifts by `i * 8` for `i` up to 10, reaching 80,
which is not below the 64-bit width. -/
theorem into_slice_shift_overflow :
    80 ∈ intoSliceShiftAmounts .TimeOfDay ∧ ¬80 < 64 := by decide

/-- C10 (amended: every kind except `TimeOfDay`): all shift amounts of the
encode loops of `into_slice` are strictly below 64 (indeed at most 40);
for `TimeOfDay` the generic path shifts by up to `10 * 8 = 80` bits. -/
theorem into_slice_shifts_lt (c : Contents) (h : c ≠ .TimeOfDay) :
    ∀ s ∈ intoSliceShiftAmounts c, s < 64 := by
  cases c
  case TimeOfDay => exact absurd rfl h
  all_goals decide

/-- C10 witness: the largest `Word48` encode shift, 40, is below 64. -/
theorem into_slice_shifts_lt_witness : (40 : Nat) < 64 :=
  into_slice_shifts_lt .Word48 (by decide) 40 (by decide)
